import Mathlib

/-!
Verification of the classical mask-recovery engine of `grove/alpha/simon/simon.py`
(Simon's algorithm post-processing): incremental GF(2) row-echelon basis
accumulation, completion by a missing unit vector, back substitution, and
truth-table validation.

Bit vectors are embedded as `List Bool` (Python bit lists of 0/1 ints, `1 ↦ true`).
Truth tables are association lists from key bit-string to value bit-string
(Python `dict` with insertion order); `List.lookup` plays the role of `dict[k]`,
with `none` standing for a raised `KeyError`.
-/

namespace Grove

/-- A basis is the Python dict `_dict_of_linearly_indep_bit_vectors`:
an insertion-ordered association list from leading-one index to bit vector. -/
abbrev Basis := List (Nat × List Bool)

/-- A truth table: association list from key bit string to value bit string. -/
abbrev TruthTable := List (List Bool × List Bool)

/-- Modelled from the spec: `u.most_significant_bit` is missing from the sources;
the spec defines the leading-one index as "the position of the most significant
set bit in a bit vector", 0-indexed from the most significant position. -/
def most_significant_bit (z : List Bool) : Nat := z.findIdx id

/-- Modelled from the spec: `u.bitwise_xor` is missing from the sources; the spec
defines it as bitwise (elementwise) XOR of two bit strings. -/
def bitwise_xor (a b : List Bool) : List Bool := List.zipWith xor a b

/-- Embedding of `Simon._add_to_dict_of_indep_bit_vectors` as a pure state transformer.
The first component is the updated dict; the second is the Python return value
(every `return` in the method is bare, so the method always returns `None`,
embedded as `none`). -/
def add_to_dict_of_indep_bit_vectors (d : Basis) (z : List Bool) :
    Basis × Option Bool :=
  if z.all (· == false) || z.all (· == true) then (d, none)
  else
    -- msb_z = u.most_significant_bit(z)
    match d.lookup (most_significant_bit z) with
    | none => (d ++ [(most_significant_bit z, z)], none)
    | some conflict_z =>
      -- not_z = [conflict_z[idx] ^ z[idx] for idx in range(len(z))]
      if (List.zipWith xor conflict_z z).all (· == false) then (d, none)
      else
        -- msb_not_z = u.most_significant_bit(not_z)
        match d.lookup (most_significant_bit (List.zipWith xor conflict_z z)) with
        | none => (d ++ [(most_significant_bit (List.zipWith xor conflict_z z),
            List.zipWith xor conflict_z z)], none)
        | some _ => (d, none)

/-- The state effect of one `_add_to_dict_of_indep_bit_vectors` call. -/
def addToDict (d : Basis) (z : List Bool) : Basis :=
  (add_to_dict_of_indep_bit_vectors d z).1

/-- The basis obtained from a sequence of samples starting from the empty dict. -/
def buildBasis (zs : List (List Bool)) : Basis := zs.foldl addToDict []

/-- The scan loop of `_add_missing_provenance_vector`:
`missing_prov = None; for idx in range(n): if idx not in keys: missing_prov = idx`.
Note it keeps the LAST missing index. -/
def find_missing_prov (n : Nat) (d : Basis) : Option Nat :=
  (List.range n).foldl (fun acc idx => if (d.lookup idx).isNone then some idx else acc)
    none

/-- The unit vector `np.zeros(n)` with a `1` written at position `m`. -/
def unit_vec (n m : Nat) : List Bool := (List.replicate n false).set m true

/-- Embedding of `Simon._add_missing_provenance_vector`: find the (last) missing provenance
index, raise `ValueError` (`none`) if there is none, otherwise insert the unit
vector at the missing index and return it together with the updated dict. -/
def add_missing_provenance_vector (n : Nat) (d : Basis) : Option (Nat × Basis) :=
  match find_missing_prov n d with
  | none => none
  | some m => some (m, d ++ [(m, unit_vec n m)])

/-- The sort in `_invert_mask_equation`: dict entries ordered by key. -/
def sortByKey (d : Basis) : Basis := List.insertionSort (fun p q => p.1 ≤ q.1) d

/-- The `upper_triangular_matrix` of `_invert_mask_equation`: the dict's vectors
ordered by increasing leading-one key. -/
def upper_triangular_matrix (d : Basis) : List (List Bool) :=
  (sortByKey d).map Prod.snd

/-- Dot product over GF(2): XOR-fold of the elementwise AND. -/
def gf2Dot (a b : List Bool) : Bool := (List.zipWith and a b).foldr xor false

/-- Matrix–vector product over GF(2), one `gf2Dot` per row. -/
def gf2MatVec (M : List (List Bool)) (x : List Bool) : List Bool :=
  M.map fun r => gf2Dot r x

/-- Back-substitution worker: `bbsGo W s n k` is the list of already-solved mask
bits for the rows `n - k, …, n - 1`, produced bottom row first. -/
def bbsGo (W : List (List Bool)) (s : List Bool) (n : Nat) : Nat → List Bool
  | 0 => []
  | k + 1 =>
    let prev := bbsGo W s n k
    let i := n - (k + 1)
    (xor (s.getD i false) (gf2Dot ((W.getD i []).drop (i + 1)) prev)) :: prev

/-- Modelled from the spec: `u.binary_back_substitute` is missing from the
sources; the spec prescribes processing rows from the last to the first and
computing each mask bit as the XOR of the target bit with the GF(2) dot product
of the row entries right of the pivot against the already-solved mask bits. -/
def binary_back_substitute (W : List (List Bool)) (s : List Bool) : List Bool :=
  bbsGo W s s.length s.length

/-- Embedding of `Simon._invert_mask_equation`: complete the basis, sort it into the
upper-triangular matrix, and back-substitute against the missing-provenance
unit vector. `none` is the `ValueError` of the completion step. -/
def invert_mask_equation (n : Nat) (d : Basis) : Option (List Bool) :=
  match add_missing_provenance_vector n d with
  | none => none
  | some (m, d') =>
    some (binary_back_substitute (upper_triangular_matrix d') (unit_vec n m))

/-- The comprehension inside `_check_mask_correct`: for each key `k` of the list,
look up `k` and `k XOR mask` (a failed lookup is a Python `KeyError`, `none`),
and AND the comparisons together. Python's `all([...])` evaluates every element
first, so a `KeyError` anywhere poisons the whole call. -/
def check_keys (mask : List Bool) (t : TruthTable) : List (List Bool) → Option Bool
  | [] => some true
  | k :: ks =>
    match t.lookup k, t.lookup (bitwise_xor k mask) with
    | some v1, some v2 =>
      match check_keys mask t ks with
      | none => none
      | some b => some ((v1 == v2) && b)
    | _, _ => none

/-- Embedding of `Simon._check_mask_correct`: `all(bit_map[k] == bit_map[k XOR mask])` over
the keys of the truth table. -/
def check_mask_correct (mask : List Bool) (t : TruthTable) : Option Bool :=
  check_keys mask t (t.map Prod.fst)

/-- The argument of `find_mask`, which Python first subjects to an
`isinstance(·, dict)` check: either a dict (truth table) or any other object. -/
inductive PyInput where
  | dict (t : TruthTable)
  | nondict

/-- Outcome of a `find_mask` call. `outOfSamples` is an artifact of modelling
the unbounded sampling loop with a finite oracle stream: it marks runs on which
the Python loop would still be requesting samples. -/
inductive SimonResult where
  | invalidInput
  | emptyTable
  | outOfSamples
  | missingProvenance
  | keyError
  | noValidMask
  | ok (mask : List Bool)
deriving DecidableEq

/-- The loop of `_sample_independent_bit_vectors`:
`while len(dict) < n - 1: add(oracle())`, the oracle stream being consumed one
sample per iteration. `none` = the finite stream ran out while the loop was
still running. -/
def sample_loop (n : Nat) (zs : List (List Bool)) (d : Basis) : Option Basis :=
  match zs with
  | [] => if n - 1 ≤ d.length then some d else none
  | z :: rest =>
    if n - 1 ≤ d.length then some d else sample_loop n rest (addToDict d z)

/-- The tail of `find_mask` after the sampling loop: invert the mask equation
and validate the result against the truth table. -/
def after_loop (t : TruthTable) (n : Nat) (d : Basis) : SimonResult :=
  match add_missing_provenance_vector n d with
  | none => SimonResult.missingProvenance
  | some (m, d') =>
    let mask := binary_back_substitute (upper_triangular_matrix d') (unit_vec n m)
    match check_mask_correct mask t with
    | none => SimonResult.keyError
    | some true => SimonResult.ok mask
    | some false => SimonResult.noValidMask

/-- Embedding of `Simon.find_mask`: reject a non-dict argument, derive `n` from the first
key's length (an empty dict raises `IndexError`), run the sampling loop from an
empty basis, then invert and validate. -/
def find_mask (oracle : List (List Bool)) (input : PyInput) : SimonResult :=
  match input with
  | PyInput.nondict => SimonResult.invalidInput
  | PyInput.dict [] => SimonResult.emptyTable
  | PyInput.dict ((k0, v0) :: rest) =>
    match sample_loop k0.length oracle [] with
    | none => SimonResult.outOfSamples
    | some d => after_loop ((k0, v0) :: rest) k0.length d

/-- The truth table `{000:101, 001:010, 010:000, 011:110, 100:000, 101:110,
110:101, 111:010}` of the spec's round-trip scenario (hidden mask `110`). -/
def simon_table : TruthTable :=
  [([false, false, false], [true, false, true]),
   ([false, false, true], [false, true, false]),
   ([false, true, false], [false, false, false]),
   ([false, true, true], [true, true, false]),
   ([true, false, false], [false, false, false]),
   ([true, false, true], [true, true, false]),
   ([true, true, false], [true, false, true]),
   ([true, true, true], [false, true, false])]

/-- The invariant maintained by the accumulator on length-`n` samples: every
stored vector has length `n`, its leading-one index is its own key, keys are
below `n`, and no two entries share a key. -/
def BasisInvariant (n : Nat) (d : Basis) : Prop :=
  (∀ p ∈ d, p.2.length = n ∧ most_significant_bit p.2 = p.1 ∧ p.1 < n) ∧
    (d.map Prod.fst).Nodup

/-- XOR of a list of length-`n` bit vectors. -/
def xorList (n : Nat) (t : List (List Bool)) : List Bool :=
  t.foldr (fun v acc => List.zipWith xor v acc) (List.replicate n false)

/-- Linear independence over GF(2): no nonempty subcollection XORs to zero. -/
def MutuallyIndep (n : Nat) (vs : List (List Bool)) : Prop :=
  ∀ t, t.Sublist vs → t ≠ [] → xorList n t ≠ List.replicate n false

/-- The reachable accumulator states when all samples are 3-bit vectors
orthogonal to the hidden mask `110`. -/
def reachable3 (d : Basis) : Prop :=
  d = [] ∨ d = [(0, [true, true, false])] ∨ d = [(2, [false, false, true])] ∨
  d = [(0, [true, true, false]), (2, [false, false, true])] ∨
  d = [(2, [false, false, true]), (0, [true, true, false])]

instance : DecidablePred reachable3 := fun d => by
  unfold reachable3
  infer_instance

instance : IsTotal (Nat × List Bool) fun p q => p.1 ≤ q.1 :=
  ⟨fun a b => Nat.le_total a.1 b.1⟩

instance : IsTrans (Nat × List Bool) fun p q => p.1 ≤ q.1 :=
  ⟨fun _ _ _ h1 h2 => le_trans h1 h2⟩

/-! ### Helper lemmas about leading-one indices -/

lemma getD_false_of_lt_findIdx {l : List Bool} {j : Nat} (h : j < l.findIdx id) :
    l.getD j false = false := by
  have hlen : j < l.length := lt_of_lt_of_le h (List.findIdx_le_length id)
  rw [List.getD_eq_getElem _ _ hlen]
  simpa using List.not_of_lt_findIdx h

lemma getD_findIdx_true {l : List Bool} (h : l.findIdx id < l.length) :
    l.getD (l.findIdx id) false = true := by
  rw [List.getD_eq_getElem _ _ h]
  simpa using List.findIdx_getElem (w := h)

lemma findIdx_lt_length_of_not_all_false {l : List Bool}
    (h : ¬ l.all (· == false) = true) : l.findIdx id < l.length := by
  apply List.findIdx_lt_length_of_exists
  simp only [List.all_eq_true] at h
  push_neg at h
  obtain ⟨x, hx, hxf⟩ := h
  refine ⟨x, hx, ?_⟩
  cases x
  · simp at hxf
  · rfl

lemma findIdx_eq_of_getD {l : List Bool} {i : Nat}
    (h1 : ∀ j < i, l.getD j false = false) (h2 : l.getD i false = true) :
    l.findIdx id = i := by
  induction l generalizing i with
  | nil => simp at h2
  | cons a l ih =>
    cases i with
    | zero =>
      simp only [List.getD_cons_zero] at h2
      simp [List.findIdx_cons, h2]
    | succ j =>
      have ha : a = false := by simpa using h1 0 (Nat.succ_pos j)
      have := ih (fun j' hj' => by simpa using h1 (j' + 1) (Nat.succ_lt_succ hj'))
        (by simpa using h2)
      simp [List.findIdx_cons, ha, this]

lemma lt_findIdx_of_getD {l : List Bool} {m : Nat}
    (h : ∀ j ≤ m, l.getD j false = false) (hm : m < l.length) :
    m < l.findIdx id := by
  by_contra hc
  have hle : l.findIdx id ≤ m := not_lt.mp hc
  have hlt : l.findIdx id < l.length := lt_of_le_of_lt hle hm
  have := getD_findIdx_true hlt
  rw [h _ hle] at this
  exact Bool.false_ne_true this

lemma getD_zipWith_xor {a b : List Bool} {i : Nat} (ha : i < a.length)
    (hb : i < b.length) :
    (List.zipWith xor a b).getD i false = xor (a.getD i false) (b.getD i false) := by
  have hl : i < (List.zipWith xor a b).length := by
    rw [List.length_zipWith]; exact lt_min ha hb
  rw [List.getD_eq_getElem _ _ hl, List.getD_eq_getElem _ _ ha,
    List.getD_eq_getElem _ _ hb, List.getElem_zipWith]

lemma getD_replicate_false {n m : Nat} :
    (List.replicate n false).getD m false = false := by
  by_cases h : m < n
  · rw [List.getD_eq_getElem _ _ (by simpa using h)]
    exact List.getElem_replicate _ _
  · exact List.getD_eq_default _ _ (by simpa using not_lt.mp h)

/-! ### Helper lemmas about association-list lookup -/

section Lookup

variable {α β : Type} [BEq α] [LawfulBEq α]

lemma lookup_isSome_iff (d : List (α × β)) (k : α) :
    (d.lookup k).isSome = true ↔ k ∈ d.map Prod.fst := by
  induction d with
  | nil => simp [List.lookup]
  | cons p rest ih =>
    obtain ⟨k', v⟩ := p
    by_cases h : k = k'
    · subst h; simp [List.lookup_cons]
    · have : (k == k') = false := by simpa using h
      simp [List.lookup_cons, this, ih, h]

lemma lookup_eq_none_iff (d : List (α × β)) (k : α) :
    d.lookup k = none ↔ k ∉ d.map Prod.fst := by
  rw [← lookup_isSome_iff]
  cases h : d.lookup k <;> simp [h]

lemma lookup_mem {d : List (α × β)} {k : α} {v : β} (h : d.lookup k = some v) :
    (k, v) ∈ d := by
  induction d with
  | nil => simp [List.lookup] at h
  | cons p rest ih =>
    obtain ⟨k', v'⟩ := p
    by_cases hk : k = k'
    · subst hk
      have hbeq : (k == k) = true := by simp
      simp only [List.lookup_cons, hbeq] at h
      cases h
      exact List.mem_cons_self _ _
    · have hbeq : (k == k') = false := by simpa using hk
      simp only [List.lookup_cons, hbeq] at h
      exact List.mem_cons_of_mem _ (ih h)

lemma lookup_append_left {d : List (α × β)} {k : α} (l : List (α × β))
    (h : (d.lookup k).isSome = true) : (d ++ l).lookup k = d.lookup k := by
  induction d with
  | nil => simp [List.lookup] at h
  | cons p rest ih =>
    obtain ⟨k', v'⟩ := p
    by_cases hk : k = k'
    · subst hk; simp [List.lookup_cons]
    · have hbeq : (k == k') = false := by simpa using hk
      simp only [List.lookup_cons, hbeq, List.cons_append] at h ⊢
      exact ih h

lemma lookup_append_none {d : List (α × β)} {k : α} (l : List (α × β))
    (h : d.lookup k = none) : (d ++ l).lookup k = l.lookup k := by
  induction d with
  | nil => simp
  | cons p rest ih =>
    obtain ⟨k', v'⟩ := p
    by_cases hk : k = k'
    · subst hk; simp [List.lookup_cons] at h
    · have hbeq : (k == k') = false := by simpa using hk
      simp only [List.lookup_cons, hbeq, List.cons_append] at h ⊢
      exact ih h

lemma lookup_append_singleton {d : List (α × β)} {k : α} (v : β)
    (h : d.lookup k = none) : (d ++ [(k, v)]).lookup k = some v := by
  rw [lookup_append_none _ h]
  simp [List.lookup_cons]

end Lookup

/-! ### XOR sums and linear independence from distinct leading-one indices -/

lemma xorList_nil {n : Nat} : xorList n [] = List.replicate n false := rfl

lemma xorList_cons {n : Nat} {v : List Bool} {t : List (List Bool)} :
    xorList n (v :: t) = List.zipWith xor v (xorList n t) := rfl

lemma length_xorList {n : Nat} {t : List (List Bool)}
    (h : ∀ v ∈ t, v.length = n) : (xorList n t).length = n := by
  induction t with
  | nil => simp [xorList_nil]
  | cons v rest ih =>
    rw [xorList_cons, List.length_zipWith, h v (List.mem_cons_self _ _),
      ih fun w hw => h w (List.mem_cons_of_mem _ hw)]
    exact min_self n

lemma getD_xorList {n : Nat} {t : List (List Bool)} {i : Nat}
    (h : ∀ v ∈ t, v.length = n) (hi : i < n) :
    (xorList n t).getD i false =
      t.foldr (fun v b => xor (v.getD i false) b) false := by
  induction t with
  | nil => simp [xorList_nil, getD_replicate_false]
  | cons v rest ih =>
    rw [xorList_cons, List.foldr_cons,
      getD_zipWith_xor (by rw [h v (List.mem_cons_self _ _)]; exact hi)
        (by rw [length_xorList fun w hw => h w (List.mem_cons_of_mem _ hw)]; exact hi),
      ih fun w hw => h w (List.mem_cons_of_mem _ hw)]

lemma exists_min_mem : ∀ (l : List Nat), l ≠ [] → ∃ m ∈ l, ∀ x ∈ l, m ≤ x := by
  intro l
  induction l with
  | nil => intro h; exact absurd rfl h
  | cons a l ih =>
    intro _
    rcases eq_or_ne l [] with hl | hl
    · subst hl
      exact ⟨a, List.mem_cons_self _ _, by simp⟩
    · obtain ⟨m, hm, hall⟩ := ih hl
      rcases le_total a m with ham | hma
      · refine ⟨a, List.mem_cons_self _ _, fun x hx => ?_⟩
        rcases List.mem_cons.mp hx with rfl | hx
        · exact le_refl _
        · exact le_trans ham (hall x hx)
      · refine ⟨m, List.mem_cons_of_mem _ hm, fun x hx => ?_⟩
        rcases List.mem_cons.mp hx with rfl | hx
        · exact hma
        · exact hall x hx

lemma foldr_xor_all_false {t : List (List Bool)} {m : Nat}
    (h : ∀ v ∈ t, v.getD m false = false) :
    t.foldr (fun v b => xor (v.getD m false) b) false = false := by
  induction t with
  | nil => rfl
  | cons v rest ih =>
    rw [List.foldr_cons, h v (List.mem_cons_self _ _),
      ih fun w hw => h w (List.mem_cons_of_mem _ hw)]
    rfl

lemma foldr_xor_unique_true {t : List (List Bool)} {m : Nat}
    (hmin : ∀ v ∈ t, m ≤ v.findIdx id)
    (hmem : ∃ u ∈ t, u.findIdx id = m)
    (hdis : t.Pairwise fun a b => a.findIdx id ≠ b.findIdx id)
    (hlen : ∀ v ∈ t, m < v.length) :
    t.foldr (fun v b => xor (v.getD m false) b) false = true := by
  induction t with
  | nil => simp at hmem
  | cons w rest ih =>
    obtain ⟨hw_rest, hrest_pair⟩ := List.pairwise_cons.mp hdis
    by_cases hcase : w.findIdx id = m
    · have hrest : ∀ v ∈ rest, v.getD m false = false := by
        intro v hv
        apply getD_false_of_lt_findIdx
        exact lt_of_le_of_ne (hmin v (List.mem_cons_of_mem _ hv))
          fun hvm => hw_rest v hv (hcase.trans hvm)
      have hw : w.getD m false = true := by
        have := getD_findIdx_true (l := w)
          (by rw [hcase]; exact hlen w (List.mem_cons_self _ _))
        rwa [hcase] at this
      rw [List.foldr_cons, foldr_xor_all_false hrest, hw]
      rfl
    · obtain ⟨u, hu, hum⟩ := hmem
      have hu_rest : u ∈ rest := by
        rcases List.mem_cons.mp hu with rfl | hx
        · exact absurd hum hcase
        · exact hx
      have hw : w.getD m false = false :=
        getD_false_of_lt_findIdx
          (lt_of_le_of_ne (hmin w (List.mem_cons_self _ _)) (Ne.symm hcase))
      rw [List.foldr_cons, hw,
        ih (fun v hv => hmin v (List.mem_cons_of_mem _ hv)) ⟨u, hu_rest, hum⟩
          hrest_pair (fun v hv => hlen v (List.mem_cons_of_mem _ hv))]
      rfl

lemma indep_of_distinct_leading {n : Nat} {t : List (List Bool)}
    (hlen : ∀ v ∈ t, v.length = n) (hlt : ∀ v ∈ t, v.findIdx id < n)
    (hdis : t.Pairwise fun a b => a.findIdx id ≠ b.findIdx id) (hne : t ≠ []) :
    xorList n t ≠ List.replicate n false := by
  obtain ⟨m, hm_mem, hm_min⟩ :=
    exists_min_mem (t.map fun v => v.findIdx id) (by simpa using hne)
  rcases List.mem_map.mp hm_mem with ⟨u, hu, hum⟩
  have hmn : m < n := hum ▸ hlt u hu
  intro heq
  have h1 : (xorList n t).getD m false = true := by
    rw [getD_xorList hlen hmn]
    exact foldr_xor_unique_true
      (fun v hv => hm_min _ (List.mem_map_of_mem _ hv)) ⟨u, hu, hum⟩ hdis
      (fun v hv => by rw [hlen v hv]; exact hmn)
  rw [heq, getD_replicate_false] at h1
  exact Bool.false_ne_true h1

/-! ### Structure of one accumulator step -/

lemma msb_def (z : List Bool) : most_significant_bit z = z.findIdx id := rfl

lemma add_returns_none (d : Basis) (z : List Bool) :
    (add_to_dict_of_indep_bit_vectors d z).2 = none := by
  unfold add_to_dict_of_indep_bit_vectors
  split
  · rfl
  · split
    · rfl
    · split
      · rfl
      · split
        · rfl
        · rfl

lemma addToDict_spec (d : Basis) (z : List Bool) :
    addToDict d z = d ∨
    ∃ w, ¬ w.all (· == false) = true ∧
      d.lookup (most_significant_bit w) = none ∧
      addToDict d z = d ++ [(most_significant_bit w, w)] ∧
      (w = z ∨ ∃ c, d.lookup (most_significant_bit z) = some c ∧
        w = List.zipWith xor c z) := by
  unfold addToDict add_to_dict_of_indep_bit_vectors
  by_cases hg : (z.all (· == false) || z.all (· == true)) = true
  · left; rw [if_pos hg]
  · have hzf : ¬ z.all (· == false) = true := fun h => hg (by rw [h, Bool.true_or])
    rw [if_neg hg]
    cases hl : d.lookup (most_significant_bit z) with
    | none =>
      right
      exact ⟨z, hzf, hl, rfl, Or.inl rfl⟩
    | some c =>
      dsimp only
      by_cases hz : (List.zipWith xor c z).all (· == false) = true
      · left; rw [if_pos hz]
      · rw [if_neg hz]
        cases hl2 : d.lookup (most_significant_bit (List.zipWith xor c z)) with
        | none =>
          right
          exact ⟨List.zipWith xor c z, hz, hl2, rfl, Or.inr ⟨c, rfl, rfl⟩⟩
        | some _ => left; rfl

lemma sublist_addToDict (d : Basis) (z : List Bool) : d.Sublist (addToDict d z) := by
  rcases addToDict_spec d z with heq | ⟨w, _, _, heq, _⟩
  · rw [heq]
  · rw [heq]; exact List.sublist_append_left d _

lemma length_addToDict (d : Basis) (z : List Bool) :
    (addToDict d z).length ≤ d.length + 1 := by
  rcases addToDict_spec d z with heq | ⟨w, _, _, heq, _⟩
  · rw [heq]; exact Nat.le_succ _
  · rw [heq]; simp

lemma lookup_addToDict (d : Basis) (z : List Bool) (k : Nat)
    (h : (d.lookup k).isSome = true) : (addToDict d z).lookup k = d.lookup k := by
  rcases addToDict_spec d z with heq | ⟨w, _, _, heq, _⟩
  · rw [heq]
  · rw [heq]; exact lookup_append_left _ h

lemma BasisInvariant_nil (n : Nat) : BasisInvariant n [] := ⟨by simp, by simp⟩

lemma BasisInvariant_addToDict {n : Nat} {d : Basis} {z : List Bool}
    (hinv : BasisInvariant n d) (hz : z.length = n) :
    BasisInvariant n (addToDict d z) := by
  rcases addToDict_spec d z with heq | ⟨w, hwf, hwl, heq, hw⟩
  · rw [heq]; exact hinv
  · rw [heq]
    obtain ⟨hmem, hnodup⟩ := hinv
    have hwlen : w.length = n := by
      rcases hw with rfl | ⟨c, hc, rfl⟩
      · exact hz
      · rw [List.length_zipWith, (hmem _ (lookup_mem hc)).1, hz]
        exact min_self n
    have hmsb : most_significant_bit w < n := by
      have := findIdx_lt_length_of_not_all_false hwf
      rwa [hwlen] at this
    refine ⟨?_, ?_⟩
    · intro p hp
      rcases List.mem_append.mp hp with hp | hp
      · exact hmem p hp
      · rw [List.mem_singleton.mp hp]
        exact ⟨hwlen, rfl, hmsb⟩
    · rw [List.map_append]
      have hnot : most_significant_bit w ∉ d.map Prod.fst :=
        (lookup_eq_none_iff _ _).mp hwl
      simp [List.nodup_append, hnodup, hnot]

lemma BasisInvariant_foldl {n : Nat} (zs : List (List Bool))
    (hz : ∀ z ∈ zs, z.length = n) :
    ∀ d : Basis, BasisInvariant n d → BasisInvariant n (zs.foldl addToDict d) := by
  induction zs with
  | nil => intro d hd; exact hd
  | cons z rest ih =>
    intro d hd
    rw [List.foldl_cons]
    exact ih (fun w hw => hz w (List.mem_cons_of_mem _ hw)) _
      (BasisInvariant_addToDict hd (hz z (List.mem_cons_self _ _)))

lemma BasisInvariant_buildBasis {n : Nat} (zs : List (List Bool))
    (hz : ∀ z ∈ zs, z.length = n) : BasisInvariant n (buildBasis zs) :=
  BasisInvariant_foldl zs hz [] (BasisInvariant_nil n)

lemma values_pairwise_leading {n : Nat} {d : Basis} (hinv : BasisInvariant n d) :
    (d.map Prod.snd).Pairwise fun a b => a.findIdx id ≠ b.findIdx id := by
  obtain ⟨hmem, hnodup⟩ := hinv
  rw [List.pairwise_map]
  have h1 : d.Pairwise fun p q => p.1 ≠ q.1 := List.pairwise_map.mp hnodup
  refine h1.imp_of_mem ?_
  intro p q hp hq hne
  rw [← (hmem p hp).2.1, ← (hmem q hq).2.1] at hne
  exact hne

lemma mutuallyIndep_of_invariant {n : Nat} {d : Basis}
    (hinv : BasisInvariant n d) : MutuallyIndep n (d.map Prod.snd) := by
  intro t hsub hne
  apply indep_of_distinct_leading ?_ ?_
    (List.Pairwise.sublist hsub (values_pairwise_leading hinv)) hne
  · intro v hv
    rcases List.mem_map.mp (hsub.mem hv) with ⟨p, hp, rfl⟩
    exact (hinv.1 p hp).1
  · intro v hv
    rcases List.mem_map.mp (hsub.mem hv) with ⟨p, hp, rfl⟩
    rw [← msb_def, (hinv.1 p hp).2.1]
    exact (hinv.1 p hp).2.2

/-! ### The completion step -/

lemma find_missing_prov_succ (n : Nat) (d : Basis) :
    find_missing_prov (n + 1) d =
      if (d.lookup n).isNone then some n else find_missing_prov n d := by
  unfold find_missing_prov
  rw [List.range_succ, List.foldl_append]
  rfl

lemma find_missing_prov_none_iff (n : Nat) (d : Basis) :
    find_missing_prov n d = none ↔ ∀ i < n, (d.lookup i).isSome = true := by
  induction n with
  | zero =>
    constructor
    · intro _ i hi; exact absurd hi (Nat.not_lt_zero i)
    · intro _; rfl
  | succ n ih =>
    rw [find_missing_prov_succ]
    by_cases hn : (d.lookup n).isNone = true
    · rw [if_pos hn]
      constructor
      · intro h; exact absurd h (by simp)
      · intro h
        have := h n (Nat.lt_succ_self n)
        rw [Option.isNone_iff_eq_none.mp hn] at this
        simp at this
    · rw [if_neg hn, ih]
      constructor
      · intro h i hi
        rcases Nat.lt_succ_iff_lt_or_eq.mp hi with hi | rfl
        · exact h i hi
        · simpa using hn
      · intro h i hi
        exact h i (Nat.lt_succ_of_lt hi)

lemma find_missing_prov_some {n : Nat} {d : Basis} {m : Nat}
    (h : find_missing_prov n d = some m) :
    m < n ∧ d.lookup m = none ∧ ∀ i, m < i → i < n → (d.lookup i).isSome = true := by
  induction n with
  | zero => exact absurd h (by simp [find_missing_prov])
  | succ n ih =>
    rw [find_missing_prov_succ] at h
    by_cases hn : (d.lookup n).isNone = true
    · rw [if_pos hn] at h
      cases h
      exact ⟨Nat.lt_succ_self m, Option.isNone_iff_eq_none.mp hn,
        fun i hmi hin => absurd hin (by omega)⟩
    · rw [if_neg hn] at h
      obtain ⟨h1, h2, h3⟩ := ih h
      refine ⟨Nat.lt_succ_of_lt h1, h2, fun i hmi hin => ?_⟩
      rcases Nat.lt_succ_iff_lt_or_eq.mp hin with hin | rfl
      · exact h3 i hmi hin
      · simpa using hn

lemma add_missing_some {n : Nat} {d : Basis} {m : Nat}
    (h : find_missing_prov n d = some m) :
    add_missing_provenance_vector n d = some (m, d ++ [(m, unit_vec n m)]) := by
  unfold add_missing_provenance_vector
  rw [h]

lemma add_missing_none {n : Nat} {d : Basis}
    (h : find_missing_prov n d = none) :
    add_missing_provenance_vector n d = none := by
  unfold add_missing_provenance_vector
  rw [h]

lemma length_unit_vec (n m : Nat) : (unit_vec n m).length = n := by
  unfold unit_vec
  rw [List.length_set, List.length_replicate]

lemma getD_unit_vec_self {n m : Nat} (h : m < n) :
    (unit_vec n m).getD m false = true := by
  unfold unit_vec
  rw [List.getD_eq_getElem _ _ (by rw [List.length_set, List.length_replicate]; exact h),
    List.getElem_set]
  simp

lemma getD_unit_vec_ne {n m j : Nat} (hj : j < n) (hne : m ≠ j) :
    (unit_vec n m).getD j false = false := by
  unfold unit_vec
  rw [List.getD_eq_getElem _ _ (by rw [List.length_set, List.length_replicate]; exact hj),
    List.getElem_set, if_neg hne]
  exact List.getElem_replicate _ _

lemma msb_unit_vec {n m : Nat} (h : m < n) :
    most_significant_bit (unit_vec n m) = m := by
  rw [msb_def]
  exact findIdx_eq_of_getD
    (fun j hj => getD_unit_vec_ne (lt_trans hj h) (Nat.ne_of_gt hj))
    (getD_unit_vec_self h)

/-! ### Back substitution over GF(2) -/

lemma gf2Dot_nil_right (a : List Bool) : gf2Dot a [] = false := by
  cases a <;> rfl

lemma gf2Dot_cons (x y : Bool) (a b : List Bool) :
    gf2Dot (x :: a) (y :: b) = xor (x && y) (gf2Dot a b) := rfl

lemma gf2Dot_drop (k : Nat) :
    ∀ (a b : List Bool), (∀ j < k, a.getD j false = false) →
      gf2Dot a b = gf2Dot (a.drop k) (b.drop k) := by
  induction k with
  | zero => intro a b _; rfl
  | succ k ih =>
    intro a b h
    match a, b with
    | [], b => simp [gf2Dot]
    | x :: a, [] => rw [gf2Dot_nil_right, List.drop_nil, gf2Dot_nil_right]
    | x :: a, y :: b =>
      have hx : x = false := by simpa using h 0 (Nat.succ_pos k)
      rw [gf2Dot_cons, hx, Bool.false_and, Bool.false_xor, List.drop_succ_cons,
        List.drop_succ_cons]
      exact ih a b fun j hj => by simpa using h (j + 1) (Nat.succ_lt_succ hj)

lemma bbsGo_length (W : List (List Bool)) (s : List Bool) (n : Nat) :
    ∀ k, (bbsGo W s n k).length = k := by
  intro k
  induction k with
  | zero => rfl
  | succ k ih => unfold bbsGo; rw [List.length_cons, ih]

lemma bbsGo_succ (W : List (List Bool)) (s : List Bool) (n k : Nat) :
    bbsGo W s n (k + 1) =
      (xor (s.getD (n - (k + 1)) false)
        (gf2Dot ((W.getD (n - (k + 1)) []).drop (n - (k + 1) + 1)) (bbsGo W s n k)))
        :: bbsGo W s n k := rfl

lemma bbsGo_drop (W : List (List Bool)) (s : List Bool) (n : Nat) :
    ∀ a b, (bbsGo W s n (a + b)).drop a = bbsGo W s n b := by
  intro a
  induction a with
  | zero => intro b; rw [Nat.zero_add, List.drop_zero]
  | succ a ih =>
    intro b
    rw [Nat.succ_add, bbsGo_succ, List.drop_succ_cons]
    exact ih b

lemma gf2Dot_bbsGo_row {n : Nat} {M : List (List Bool)} {s : List Bool} {i : Nat}
    (hi : i < n)
    (hrow_len : (M.getD i []).length = n)
    (hrow_lead : (M.getD i []).findIdx id = i) :
    gf2Dot (M.getD i []) (bbsGo M s n n) = s.getD i false := by
  have hstep1 : gf2Dot (M.getD i []) (bbsGo M s n n) =
      gf2Dot ((M.getD i []).drop i) ((bbsGo M s n n).drop i) :=
    gf2Dot_drop i _ _ fun j hj =>
      getD_false_of_lt_findIdx (by rw [hrow_lead]; exact hj)
  have hsplit : i + (n - i) = n := Nat.add_sub_cancel' (le_of_lt hi)
  have hstep2 : (bbsGo M s n n).drop i = bbsGo M s n (n - i) := by
    have h := bbsGo_drop M s n i (n - i)
    rwa [hsplit] at h
  have hk : n - i = (n - i - 1) + 1 := by omega
  have hidx : n - ((n - i - 1) + 1) = i := by omega
  have hrow_bit : (M.getD i []).getD i false = true := by
    have h := getD_findIdx_true (l := M.getD i [])
      (by rw [hrow_lead, hrow_len]; exact hi)
    rwa [hrow_lead] at h
  have hrow_drop : (M.getD i []).drop i =
      true :: (M.getD i []).drop (i + 1) := by
    rw [List.drop_eq_getElem_cons (by rw [hrow_len]; exact hi),
      ← List.getD_eq_getElem _ false (by rw [hrow_len]; exact hi), hrow_bit]
  rw [hstep1, hstep2, hk, bbsGo_succ, hidx, hrow_drop, gf2Dot_cons, Bool.true_and,
    Bool.xor_assoc, Bool.xor_self, Bool.xor_false]

lemma binary_back_substitute_solves {n : Nat} {M : List (List Bool)} {s : List Bool}
    (hs : s.length = n) (hMlen : M.length = n)
    (hrows : ∀ v ∈ M, v.length = n)
    (hlead : ∀ j, j < n → (M.getD j []).findIdx id = j) :
    gf2MatVec M (binary_back_substitute M s) = s := by
  unfold binary_back_substitute
  rw [hs]
  apply List.ext_getElem
  · rw [gf2MatVec, List.length_map, hMlen, hs]
  · intro j h1 h2
    simp only [gf2MatVec, List.length_map] at h1
    rw [hMlen] at h1
    simp only [gf2MatVec]
    rw [List.getElem_map, ← List.getD_eq_getElem M [] (by rw [hMlen]; exact h1),
      gf2Dot_bbsGo_row h1
        (by rw [List.getD_eq_getElem M [] (by rw [hMlen]; exact h1)]
            exact hrows _ (List.getElem_mem _))
        (hlead j h1),
      List.getD_eq_getElem s false (by rw [hs]; exact h1)]

/-! ### Validator -/

lemma check_keys_iff (mask : List Bool) (t : TruthTable) :
    ∀ ks : List (List Bool), (∀ k ∈ ks, (t.lookup k).isSome = true) →
      (check_keys mask t ks = some true ↔
        ∀ k ∈ ks, t.lookup (bitwise_xor k mask) = t.lookup k) := by
  intro ks
  induction ks with
  | nil => intro _; simp [check_keys]
  | cons k ks ih =>
    intro hks
    obtain ⟨v1, hv1⟩ := Option.isSome_iff_exists.mp (hks k (List.mem_cons_self _ _))
    have hrest := ih fun w hw => hks w (List.mem_cons_of_mem _ hw)
    unfold check_keys
    rw [hv1]
    cases h2 : t.lookup (bitwise_xor k mask) with
    | none =>
      refine iff_of_false (by simp) ?_
      intro hall
      have h := hall k (List.mem_cons_self _ _)
      rw [h2, hv1] at h
      exact Option.noConfusion h
    | some v2 =>
      dsimp only
      cases h3 : check_keys mask t ks with
      | none =>
        refine iff_of_false (by simp) ?_
        intro hall
        have h := hrest.mpr fun w hw => hall w (List.mem_cons_of_mem _ hw)
        rw [h3] at h
        exact Option.noConfusion h
      | some b =>
        rw [h3] at hrest
        constructor
        · intro h
          have h' : ((v1 == v2) && b) = true := Option.some.inj h
          obtain ⟨he, hb⟩ := Bool.and_eq_true_iff.mp h'
          intro w hw
          rcases List.mem_cons.mp hw with rfl | hw
          · rw [h2, hv1, (eq_of_beq he : v1 = v2)]
          · exact (hrest.mp (by rw [hb])) w hw
        · intro hall
          have h1 := hall k (List.mem_cons_self _ _)
          rw [h2, hv1] at h1
          have hv : v2 = v1 := Option.some.inj h1
          have hb : b = true := Option.some.inj
            (hrest.mpr fun w hw => hall w (List.mem_cons_of_mem _ hw))
          rw [hv, hb]
          simp

/-! ### Sorting the completed basis -/

lemma sortByKey_perm (d : Basis) : (sortByKey d).Perm d :=
  List.perm_insertionSort _ d

lemma sortByKey_sorted (d : Basis) :
    List.Sorted (fun p q : Nat × List Bool => p.1 ≤ q.1) (sortByKey d) :=
  List.sorted_insertionSort _ d

lemma sorted_keys_eq_range {n : Nat} {d' : Basis}
    (hnodup : (d'.map Prod.fst).Nodup)
    (hmem : ∀ i, i ∈ d'.map Prod.fst ↔ i < n) :
    (sortByKey d').map Prod.fst = List.range n := by
  have hperm : ((sortByKey d').map Prod.fst).Perm (d'.map Prod.fst) :=
    (sortByKey_perm d').map _
  apply List.eq_of_perm_of_sorted (r := (· ≤ ·))
  · apply hperm.trans
    rw [List.perm_ext_iff_of_nodup hnodup (List.nodup_range n)]
    intro a
    rw [hmem, List.mem_range]
  · exact List.pairwise_map.mpr (sortByKey_sorted d')
  · exact List.sorted_le_range n

lemma invariant_after_completion {n : Nat} {d : Basis} {m : Nat}
    (hinv : BasisInvariant n d) (hm : m < n) (hmiss : d.lookup m = none) :
    BasisInvariant n (d ++ [(m, unit_vec n m)]) := by
  refine ⟨?_, ?_⟩
  · intro p hp
    rcases List.mem_append.mp hp with hp | hp
    · exact hinv.1 p hp
    · rw [List.mem_singleton.mp hp]
      exact ⟨length_unit_vec n m, msb_unit_vec hm, hm⟩
  · rw [List.map_append]
    have hnot : m ∉ d.map Prod.fst := (lookup_eq_none_iff _ _).mp hmiss
    simp [List.nodup_append, hinv.2, hnot]

lemma missing_unique {n : Nat} {d : Basis} (hn : 1 ≤ n) (hinv : BasisInvariant n d)
    (hlen : d.length = n - 1) :
    ∃ m, m < n ∧ d.lookup m = none ∧
      ∀ i, i < n → i ≠ m → (d.lookup i).isSome = true := by
  have hkn : ∀ k ∈ d.map Prod.fst, k < n := by
    intro k hk
    rcases List.mem_map.mp hk with ⟨p, hp, rfl⟩
    exact (hinv.1 p hp).2.2
  have hcard : (d.map Prod.fst).toFinset.card = n - 1 := by
    rw [List.toFinset_card_of_nodup hinv.2, List.length_map]
    exact hlen
  have hsub : (d.map Prod.fst).toFinset ⊆ Finset.range n := fun k hk =>
    Finset.mem_range.mpr (hkn k (List.mem_toFinset.mp hk))
  have hsd : (Finset.range n \ (d.map Prod.fst).toFinset).card = 1 := by
    rw [Finset.card_sdiff hsub, Finset.card_range, hcard]
    omega
  obtain ⟨m, hm⟩ := Finset.card_eq_one.mp hsd
  have hmm : m ∈ Finset.range n \ (d.map Prod.fst).toFinset := by
    rw [hm]
    exact Finset.mem_singleton_self m
  obtain ⟨hmn, hmk⟩ := Finset.mem_sdiff.mp hmm
  refine ⟨m, Finset.mem_range.mp hmn,
    (lookup_eq_none_iff d m).mpr fun hc => hmk (List.mem_toFinset.mpr hc), ?_⟩
  intro i hi hne
  rw [lookup_isSome_iff]
  by_contra hik
  have : i ∈ Finset.range n \ (d.map Prod.fst).toFinset :=
    Finset.mem_sdiff.mpr ⟨Finset.mem_range.mpr hi,
      fun hc => hik (List.mem_toFinset.mp hc)⟩
  rw [hm, Finset.mem_singleton] at this
  exact hne this

/-! ### Claim theorems -/

/-- C8: for every `n` and every basis state, feeding the all-zero or the
all-ones bit vector of length `n` to the accumulator leaves the basis entirely
unchanged, occupies no slot, and (the call being total and returning `None`)
raises no error. -/
theorem c8_rejection_property (n : Nat) (d : Basis) :
    add_to_dict_of_indep_bit_vectors d (List.replicate n false) = (d, none) ∧
    add_to_dict_of_indep_bit_vectors d (List.replicate n true) = (d, none) := by
  constructor
  · unfold add_to_dict_of_indep_bit_vectors
    rw [if_pos]
    rw [Bool.or_eq_true]
    left
    rw [List.all_eq_true]
    intro x hx
    rw [List.eq_of_mem_replicate hx]
    rfl
  · unfold add_to_dict_of_indep_bit_vectors
    rw [if_pos]
    rw [Bool.or_eq_true]
    right
    rw [List.all_eq_true]
    intro x hx
    rw [List.eq_of_mem_replicate hx]
    rfl

/-- C7 counterexample: on the empty basis the sample `[1,0]` gains a new
independent dimension (cardinality goes from 0 to 1), yet the add call does not
return `true`: like every call of this method it returns Python `None`. -/
theorem c7_counterexample :
    (add_to_dict_of_indep_bit_vectors [] [true, false]).1.length =
      ([] : Basis).length + 1 ∧
    (add_to_dict_of_indep_bit_vectors [] [true, false]).2 = none := by decide

/-- C7 (amended): for every basis and sample, the add operation returns `None`
rather than a boolean; its effect on the basis is that either the basis is
left unchanged or exactly one new entry is appended, so the basis cardinality
increases by one exactly when the call added a new independent dimension. -/
theorem c7_add_contract (d : Basis) (z : List Bool) :
    (add_to_dict_of_indep_bit_vectors d z).2 = none ∧
    ((add_to_dict_of_indep_bit_vectors d z).1 = d ∨
      (add_to_dict_of_indep_bit_vectors d z).1.length = d.length + 1) := by
  refine ⟨add_returns_none d z, ?_⟩
  have hspec := addToDict_spec d z
  unfold addToDict at hspec
  rcases hspec with heq | ⟨w, _, _, heq, _⟩
  · left; exact heq
  · right
    rw [heq, List.length_append]
    rfl

/-- C6 counterexample: for `n = 3` and the single-entry basis
`{0 ↦ [1,1,0]}` both indices 1 and 2 are missing, yet the completion step does
not fail: it succeeds and inserts the unit vector at the largest missing
index 2. -/
theorem c6_counterexample :
    (List.lookup 1 ([(0, [true, true, false])] : Basis) = none ∧
      List.lookup 2 ([(0, [true, true, false])] : Basis) = none) ∧
    add_missing_provenance_vector 3 [(0, [true, true, false])] =
      some (2, [(0, [true, true, false]), (2, [false, false, true])]) := by decide

/-- C6 (amended): the completion step fails with the internal-invariant error
iff no index in `0..n-1` is missing from the basis; whenever at least one index
is missing — even more than one — it succeeds, returning the largest missing
index `m` (every larger index is present) and appending the unit vector at
`m`. -/
theorem c6_completion_failure (n : Nat) (d : Basis) :
    (add_missing_provenance_vector n d = none ↔
      ∀ i < n, (d.lookup i).isSome = true) ∧
    (∀ m d', add_missing_provenance_vector n d = some (m, d') →
      m < n ∧ d.lookup m = none ∧
      (∀ i, m < i → i < n → (d.lookup i).isSome = true) ∧
      d' = d ++ [(m, unit_vec n m)]) := by
  constructor
  · rw [← find_missing_prov_none_iff]
    constructor
    · intro h
      cases hf : find_missing_prov n d with
      | none => rfl
      | some m =>
        rw [add_missing_some hf] at h
        exact Option.noConfusion h
    · intro h
      exact add_missing_none h
  · intro m d' h
    cases hf : find_missing_prov n d with
    | none =>
      rw [add_missing_none hf] at h
      exact Option.noConfusion h
    | some m' =>
      rw [add_missing_some hf] at h
      have hp := Option.some.inj h
      have he1 : m' = m := congrArg Prod.fst hp
      have he2 : d ++ [(m', unit_vec n m')] = d' := congrArg Prod.snd hp
      subst he1
      obtain ⟨hm, hnone, hrest⟩ := find_missing_prov_some hf
      exact ⟨hm, hnone, hrest, he2.symm⟩

/-- C6 witness: at `n = 2` with the basis `{0 ↦ [1,0]}` the completion step
succeeds with missing index 1 and appends the unit vector there. -/
theorem c6_completion_failure_witness :
    1 < 2 ∧ List.lookup 1 ([(0, [true, false])] : Basis) = none ∧
    (∀ i, 1 < i → i < 2 →
      (List.lookup i ([(0, [true, false])] : Basis)).isSome = true) ∧
    ([(0, [true, false]), (1, [false, true])] : Basis) =
      [(0, [true, false])] ++ [(1, unit_vec 2 1)] :=
  (c6_completion_failure 2 [(0, [true, false])]).2 1
    [(0, [true, false]), (1, [false, true])] (by decide)

/-- C5: the validation check returns `true` exactly when, for every key `k` of
the truth table, looking up `k XOR mask` gives the same (defined) value as
looking up `k`; a `KeyError` on `k XOR mask` counts as failure. -/
theorem c5_validator_correct (mask : List Bool) (t : TruthTable) :
    check_mask_correct mask t = some true ↔
      ∀ k ∈ t.map Prod.fst, t.lookup (bitwise_xor k mask) = t.lookup k :=
  check_keys_iff mask t (t.map Prod.fst)
    fun k hk => (lookup_isSome_iff t k).mpr hk

/-- C3: after any sequence of add calls on length-`n` samples starting from the
empty basis, every stored vector's leading-one index equals the key under which
it is stored, no two stored entries share a leading-one index, and the stored
vectors are mutually linearly independent over GF(2). -/
theorem c3_basis_invariant (n : Nat) (zs : List (List Bool))
    (hz : ∀ z ∈ zs, z.length = n) :
    (∀ p ∈ buildBasis zs, most_significant_bit p.2 = p.1) ∧
    ((buildBasis zs).map Prod.fst).Nodup ∧
    MutuallyIndep n ((buildBasis zs).map Prod.snd) := by
  have hinv := BasisInvariant_buildBasis zs hz
  exact ⟨fun p hp => (hinv.1 p hp).2.1, hinv.2, mutuallyIndep_of_invariant hinv⟩

/-- C3 witness: the two samples `[1,0]`, `[0,1]` of length 2. -/
theorem c3_basis_invariant_witness :
    (∀ z ∈ [[true, false], [false, true]], z.length = 2) ∧
    ((∀ p ∈ buildBasis [[true, false], [false, true]],
        most_significant_bit p.2 = p.1) ∧
      ((buildBasis [[true, false], [false, true]]).map Prod.fst).Nodup ∧
      MutuallyIndep 2 ((buildBasis [[true, false], [false, true]]).map Prod.snd)) :=
  ⟨by decide, c3_basis_invariant 2 [[true, false], [false, true]] (by decide)⟩

/-- C10: under the accumulator invariant, when an add call meets a
leading-index conflict at `msb` and the XOR of the stored conflicting vector
with the sample is nonzero, the reduced vector's leading-one index is strictly
greater than `msb`; moreover the call never overwrites or removes existing
entries (the old basis is a sublist and all old keys look up unchanged) and
grows the basis by at most one entry. -/
theorem c10_conflict_resolution (n : Nat) (d : Basis) (z conflict_z : List Bool)
    (hinv : BasisInvariant n d) (hzlen : z.length = n)
    (hconf : d.lookup (most_significant_bit z) = some conflict_z)
    (hnz : ¬ (List.zipWith xor conflict_z z).all (· == false) = true) :
    most_significant_bit z < most_significant_bit (List.zipWith xor conflict_z z) ∧
    d.Sublist (addToDict d z) ∧
    (∀ k ∈ d.map Prod.fst, (addToDict d z).lookup k = d.lookup k) ∧
    (addToDict d z).length ≤ d.length + 1 := by
  obtain ⟨hclen, hcmsb, hck⟩ := hinv.1 _ (lookup_mem hconf)
  have hcf : conflict_z.findIdx id = z.findIdx id := hcmsb
  have hckf : z.findIdx id < n := hck
  refine ⟨?_, sublist_addToDict d z,
    fun k hk => lookup_addToDict d z k ((lookup_isSome_iff d k).mpr hk),
    length_addToDict d z⟩
  rw [msb_def, msb_def]
  apply lt_findIdx_of_getD
  · intro j hj
    have hjn : j < n := lt_of_le_of_lt hj hckf
    rw [getD_zipWith_xor (by rw [hclen]; exact hjn) (by rw [hzlen]; exact hjn)]
    rcases Nat.lt_or_eq_of_le hj with hlt | rfl
    · rw [getD_false_of_lt_findIdx (show j < conflict_z.findIdx id by
          rw [hcf]; exact hlt),
        getD_false_of_lt_findIdx hlt]
      rfl
    · have h1 : conflict_z.getD (z.findIdx id) false = true := by
        have h := getD_findIdx_true (l := conflict_z)
          (by rw [hcf, hclen]; exact hckf)
        rwa [hcf] at h
      have h2 : z.getD (z.findIdx id) false = true :=
        getD_findIdx_true (by rw [hzlen]; exact hckf)
      rw [h1, h2]
      rfl
  · rw [List.length_zipWith, hclen, hzlen, min_self]
    exact hckf

/-- C10 witness: `n = 3`, basis `{0 ↦ [1,0,0]}`, sample `[1,1,0]`. -/
theorem c10_conflict_resolution_witness :
    most_significant_bit [true, true, false] <
      most_significant_bit
        (List.zipWith xor [true, false, false] [true, true, false]) ∧
    ([(0, [true, false, false])] : Basis).Sublist
      (addToDict [(0, [true, false, false])] [true, true, false]) ∧
    (∀ k ∈ ([(0, [true, false, false])] : Basis).map Prod.fst,
      (addToDict [(0, [true, false, false])] [true, true, false]).lookup k =
        ([(0, [true, false, false])] : Basis).lookup k) ∧
    (addToDict [(0, [true, false, false])] [true, true, false]).length ≤
      ([(0, [true, false, false])] : Basis).length + 1 :=
  c10_conflict_resolution 3 [(0, [true, false, false])] [true, true, false]
    [true, false, false] ⟨by decide, by decide⟩ (by decide) (by decide) (by decide)

/-- C4: on a basis with exactly `n - 1` entries satisfying the basis invariant,
the completion step succeeds: it returns the single missing index `m` (no other
index below `n` is missing), appends the unit vector at `m`, and the sorted
matrix then consists of exactly `n` vectors whose leading-one indices are
`0, …, n-1` in strictly increasing order. -/
theorem c4_triangular_completeness (n : Nat) (d : Basis) (hn : 1 ≤ n)
    (hinv : BasisInvariant n d) (hlen : d.length = n - 1) :
    ∃ m, add_missing_provenance_vector n d =
        some (m, d ++ [(m, unit_vec n m)]) ∧
      d.lookup m = none ∧
      (∀ i, i < n → i ≠ m → (d.lookup i).isSome = true) ∧
      (upper_triangular_matrix (d ++ [(m, unit_vec n m)])).length = n ∧
      (upper_triangular_matrix (d ++ [(m, unit_vec n m)])).map
          (fun v => most_significant_bit v) = List.range n := by
  obtain ⟨m, hmn, hmiss, hothers⟩ := missing_unique hn hinv hlen
  obtain ⟨m', hfp⟩ : ∃ m', find_missing_prov n d = some m' := by
    cases hfp : find_missing_prov n d with
    | none =>
      exfalso
      have h := (find_missing_prov_none_iff n d).mp hfp m hmn
      rw [hmiss] at h
      simp at h
    | some m' => exact ⟨m', rfl⟩
  obtain ⟨hm'n, hm'none, _⟩ := find_missing_prov_some hfp
  have hm'm : m' = m := by
    by_contra hne
    have h := hothers m' hm'n hne
    rw [hm'none] at h
    simp at h
  rw [hm'm] at hfp
  have hinv' := invariant_after_completion hinv hmn hmiss
  have hmem' : ∀ i, i ∈ (d ++ [(m, unit_vec n m)]).map Prod.fst ↔ i < n := by
    intro i
    constructor
    · intro hi
      rcases List.mem_map.mp hi with ⟨p, hp, rfl⟩
      exact (hinv'.1 p hp).2.2
    · intro hi
      by_cases him : i = m
      · subst him
        exact List.mem_map.mpr ⟨(i, unit_vec n i),
          List.mem_append.mpr (Or.inr (List.mem_singleton.mpr rfl)), rfl⟩
      · have h := hothers i hi him
        have h2 := (lookup_isSome_iff d i).mp h
        rw [List.map_append]
        exact List.mem_append.mpr (Or.inl h2)
  have hkeys : (sortByKey (d ++ [(m, unit_vec n m)])).map Prod.fst =
      List.range n := sorted_keys_eq_range hinv'.2 hmem'
  have hslen : (sortByKey (d ++ [(m, unit_vec n m)])).length = n := by
    have h := congrArg List.length hkeys
    rwa [List.length_map, List.length_range] at h
  refine ⟨m, add_missing_some hfp, hmiss, hothers, ?_, ?_⟩
  · unfold upper_triangular_matrix
    rw [List.length_map]
    exact hslen
  · unfold upper_triangular_matrix
    rw [List.map_map]
    have h2 : (sortByKey (d ++ [(m, unit_vec n m)])).map
          ((fun v => most_significant_bit v) ∘ Prod.snd) =
        (sortByKey (d ++ [(m, unit_vec n m)])).map Prod.fst :=
      List.map_congr_left fun p hp =>
        (hinv'.1 p ((sortByKey_perm _).mem_iff.mp hp)).2.1
    rw [h2, hkeys]

/-- C4 witness: `n = 3` with the two-entry basis `{0 ↦ [1,1,0], 2 ↦ [0,0,1]}`. -/
theorem c4_triangular_completeness_witness :
    ∃ m, add_missing_provenance_vector 3
          [(0, [true, true, false]), (2, [false, false, true])] =
        some (m, [(0, [true, true, false]), (2, [false, false, true])] ++
          [(m, unit_vec 3 m)]) ∧
      List.lookup m
          ([(0, [true, true, false]), (2, [false, false, true])] : Basis) =
        none ∧
      (∀ i, i < 3 → i ≠ m →
        (List.lookup i ([(0, [true, true, false]),
          (2, [false, false, true])] : Basis)).isSome = true) ∧
      (upper_triangular_matrix ([(0, [true, true, false]),
          (2, [false, false, true])] ++ [(m, unit_vec 3 m)])).length = 3 ∧
      (upper_triangular_matrix ([(0, [true, true, false]),
          (2, [false, false, true])] ++ [(m, unit_vec 3 m)])).map
          (fun v => most_significant_bit v) = List.range 3 :=
  c4_triangular_completeness 3
    [(0, [true, true, false]), (2, [false, false, true])] (by decide)
    ⟨by decide, by decide⟩ (by decide)

/-- C2: for every matrix produced by the completion step — `n` rows of length
`n` whose leading-one indices are exactly `0, …, n-1` in increasing order — and
every unit target vector `e_i`, back substitution returns a mask of length `n`
with `M · mask = e_i` over GF(2) exactly. -/
theorem c2_solver_correct (n : Nat) (M : List (List Bool)) (i : Nat)
    (hrows : ∀ v ∈ M, v.length = n)
    (hlead : M.map (fun v => most_significant_bit v) = List.range n)
    (hi : i < n) :
    (binary_back_substitute M (unit_vec n i)).length = n ∧
    gf2MatVec M (binary_back_substitute M (unit_vec n i)) = unit_vec n i := by
  have hMlen : M.length = n := by
    have h := congrArg List.length hlead
    rwa [List.length_map, List.length_range] at h
  have hlead' : ∀ j, j < n → (M.getD j []).findIdx id = j := by
    intro j hj
    have hjM : j < M.length := by rw [hMlen]; exact hj
    have h := congrArg (fun l => l.getD j 0) hlead
    dsimp only at h
    rw [List.getD_eq_getElem _ 0 (by rw [List.length_map]; exact hjM),
      List.getD_eq_getElem _ 0 (by rw [List.length_range]; exact hj),
      List.getElem_map, List.getElem_range] at h
    rw [List.getD_eq_getElem M [] hjM]
    exact h
  have hlen_s : (unit_vec n i).length = n := length_unit_vec n i
  constructor
  · unfold binary_back_substitute
    rw [hlen_s, bbsGo_length]
  · exact binary_back_substitute_solves hlen_s hMlen hrows hlead'

/-- C2 witness: the 2×2 matrix `[[1,1],[0,1]]` with target `e_0`. -/
theorem c2_solver_correct_witness :
    (binary_back_substitute [[true, true], [false, true]]
      (unit_vec 2 0)).length = 2 ∧
    gf2MatVec [[true, true], [false, true]]
        (binary_back_substitute [[true, true], [false, true]] (unit_vec 2 0)) =
      unit_vec 2 0 :=
  c2_solver_correct 2 [[true, true], [false, true]] 0 (by decide) (by decide)
    (by decide)

/-- C9: `find_mask` on a non-dict argument returns the input-validation error
for every oracle stream (in particular the empty one, so before any oracle
call); on a dict whose run reaches the final validation with verdict `b`, it
raises "no valid mask found" iff `b` is false and returns the solved mask iff
`b` is true. -/
theorem c9_orchestrator_contract (oracle : List (List Bool)) (k0 v0 : List Bool)
    (rest : TruthTable) (d : Basis) (m : Nat) (d' : Basis) (b : Bool)
    (hloop : sample_loop k0.length oracle [] = some d)
    (hmiss : add_missing_provenance_vector k0.length d = some (m, d'))
    (hchk : check_mask_correct
      (binary_back_substitute (upper_triangular_matrix d') (unit_vec k0.length m))
      ((k0, v0) :: rest) = some b) :
    (∀ orc : List (List Bool),
      find_mask orc PyInput.nondict = SimonResult.invalidInput) ∧
    (find_mask oracle (PyInput.dict ((k0, v0) :: rest)) =
        SimonResult.noValidMask ↔ b = false) ∧
    (b = true → find_mask oracle (PyInput.dict ((k0, v0) :: rest)) =
      SimonResult.ok (binary_back_substitute (upper_triangular_matrix d')
        (unit_vec k0.length m))) := by
  have hfm : find_mask oracle (PyInput.dict ((k0, v0) :: rest)) =
      (if b = true then
        SimonResult.ok (binary_back_substitute
          (upper_triangular_matrix d') (unit_vec k0.length m))
      else SimonResult.noValidMask) := by
    unfold find_mask
    dsimp only
    rw [hloop]
    unfold after_loop
    dsimp only
    rw [hmiss]
    dsimp only
    rw [hchk]
    cases b
    · rw [if_neg (by decide)]
    · rw [if_pos rfl]
  refine ⟨fun orc => rfl, ?_, ?_⟩
  · rw [hfm]
    cases b
    · simp
    · simp
  · intro hb
    subst hb
    rw [hfm, if_pos rfl]

/-- C9 witness: the round-trip table with the two-sample oracle
`[[0,0,1],[1,1,0]]`. -/
theorem c9_orchestrator_contract_witness :
    (∀ orc : List (List Bool),
      find_mask orc PyInput.nondict = SimonResult.invalidInput) ∧
    (find_mask [[false, false, true], [true, true, false]]
        (PyInput.dict simon_table) = SimonResult.noValidMask ↔ true = false) ∧
    (true = true → find_mask [[false, false, true], [true, true, false]]
        (PyInput.dict simon_table) =
      SimonResult.ok (binary_back_substitute
        (upper_triangular_matrix [(2, [false, false, true]),
          (0, [true, true, false]), (1, [false, true, false])])
        (unit_vec 3 1))) :=
  c9_orchestrator_contract [[false, false, true], [true, true, false]]
    [false, false, false] [true, false, true]
    [([false, false, true], [false, true, false]),
     ([false, true, false], [false, false, false]),
     ([false, true, true], [true, true, false]),
     ([true, false, false], [false, false, false]),
     ([true, false, true], [true, true, false]),
     ([true, true, false], [true, false, true]),
     ([true, true, true], [false, true, false])]
    [(2, [false, false, true]), (0, [true, true, false])] 1
    [(2, [false, false, true]), (0, [true, true, false]),
      (1, [false, true, false])] true
    (by decide) (by decide) (by decide)

lemma list_bool_len3 {z : List Bool} (h : z.length = 3) :
    ∃ a b c, z = [a, b, c] := by
  cases z with
  | nil => simp at h
  | cons a t =>
    cases t with
    | nil => simp at h
    | cons b t2 =>
      cases t2 with
      | nil => simp at h
      | cons c t3 =>
        cases t3 with
        | nil => exact ⟨a, b, c, rfl⟩
        | cons e t4 =>
          simp only [List.length_cons] at h
          omega

lemma consistent3 (z : List Bool) (h3 : z.length = 3)
    (hdot : gf2Dot z [true, true, false] = false) :
    z ∈ ([[false, false, false], [false, false, true], [true, true, false],
      [true, true, true]] : List (List Bool)) := by
  obtain ⟨a, b, c, rfl⟩ := list_bool_len3 h3
  cases a <;> cases b <;> cases c <;> revert hdot <;> decide

lemma reachable3_step (d : Basis) (z : List Bool) (hd : reachable3 d)
    (hz : z ∈ ([[false, false, false], [false, false, true],
      [true, true, false], [true, true, true]] : List (List Bool))) :
    reachable3 (addToDict d z) := by
  simp only [List.mem_cons, List.not_mem_nil, or_false] at hz
  rcases hd with rfl | rfl | rfl | rfl | rfl <;>
    rcases hz with rfl | rfl | rfl | rfl <;> decide

lemma sample_loop_reachable3 :
    ∀ (zs : List (List Bool)) (d dout : Basis),
      (∀ z ∈ zs, z ∈ ([[false, false, false], [false, false, true],
        [true, true, false], [true, true, true]] : List (List Bool))) →
      reachable3 d → sample_loop 3 zs d = some dout →
      reachable3 dout ∧ 2 ≤ dout.length := by
  intro zs
  induction zs with
  | nil =>
    intro d dout _ hd h
    unfold sample_loop at h
    by_cases hlen : 3 - 1 ≤ d.length
    · rw [if_pos hlen] at h
      cases h
      exact ⟨hd, hlen⟩
    · rw [if_neg hlen] at h
      exact Option.noConfusion h
  | cons z rest ih =>
    intro d dout hmem hd h
    unfold sample_loop at h
    by_cases hlen : 3 - 1 ≤ d.length
    · rw [if_pos hlen] at h
      cases h
      exact ⟨hd, hlen⟩
    · rw [if_neg hlen] at h
      exact ih (addToDict d z) dout
        (fun w hw => hmem w (List.mem_cons_of_mem _ hw))
        (reachable3_step d z hd (hmem z (List.mem_cons_self _ _))) h

/-- C1: for the spec's round-trip truth table (hidden mask `110`), `find_mask`
fed any oracle stream of 3-bit samples consistent with the function (orthogonal
to the mask over GF(2)) that carries the sampling loop to completion returns
the mask `[1,1,0]`, and validating `[1,1,0]` against the table returns true. -/
theorem c1_round_trip (zs : List (List Bool)) (d : Basis)
    (hz : ∀ z ∈ zs, z.length = 3 ∧ gf2Dot z [true, true, false] = false)
    (hloop : sample_loop 3 zs [] = some d) :
    find_mask zs (PyInput.dict simon_table) =
      SimonResult.ok [true, true, false] ∧
    check_mask_correct [true, true, false] simon_table = some true := by
  have hmem : ∀ z ∈ zs, z ∈ ([[false, false, false], [false, false, true],
      [true, true, false], [true, true, true]] : List (List Bool)) :=
    fun z hzz => consistent3 z (hz z hzz).1 (hz z hzz).2
  obtain ⟨hreach, hlen2⟩ :=
    sample_loop_reachable3 zs [] d hmem (Or.inl rfl) hloop
  have hd : d = [(0, [true, true, false]), (2, [false, false, true])] ∨
      d = [(2, [false, false, true]), (0, [true, true, false])] := by
    rcases hreach with rfl | rfl | rfl | rfl | rfl
    · exact absurd hlen2 (by decide)
    · exact absurd hlen2 (by decide)
    · exact absurd hlen2 (by decide)
    · exact Or.inl rfl
    · exact Or.inr rfl
  refine ⟨?_, by decide⟩
  have hred : find_mask zs (PyInput.dict simon_table) =
      match sample_loop 3 zs [] with
      | none => SimonResult.outOfSamples
      | some d0 => after_loop simon_table 3 d0 := rfl
  rw [hred, hloop]
  rcases hd with rfl | rfl <;> decide

/-- C1 witness: the oracle stream `[[0,0,1],[1,1,0]]`. -/
theorem c1_round_trip_witness :
    (∀ z ∈ [[false, false, true], [true, true, false]],
      z.length = 3 ∧ gf2Dot z [true, true, false] = false) ∧
    (find_mask [[false, false, true], [true, true, false]]
        (PyInput.dict simon_table) = SimonResult.ok [true, true, false] ∧
      check_mask_correct [true, true, false] simon_table = some true) :=
  ⟨by decide, c1_round_trip [[false, false, true], [true, true, false]]
    [(2, [false, false, true]), (0, [true, true, false])] (by decide) (by decide)⟩

end Grove
